import Mathlib

/-!
Verification of `audiodedupe.py` (alberanid/audiodedupe).

This file is a shallow embedding of the program's core: the fingerprint
index (`self.fingerprints` / `self.reverseFingerprints`), cache
persistence (`loadCache` / `writeCache`), the scan coordinator
(`scanFile` / `scan`), the pruner (`pruneFingerprints`), the file-name
filter of `_descend`, and the CLI wiring of the `--disable-cache` flag.

Modelling conventions:
* Python `dict` (insertion-ordered) becomes an association list with
  string keys; `dict.setdefault` appends a fresh key at the end,
  assignment to an existing key updates the value in place.
* The external fingerprint command (`fpcalc`) is an oracle
  `Path → ProviderResult`; its non-success constructors enumerate the
  failure branches of `scanFile` (lines 86-105 of the source).
* The persisted cache file is a `CacheContent`: absent, unparseable,
  or a parsed forward mapping.
* `scan` uses `multiprocessing.Pool.map(self.scanFile, ...)`: each work
  item is dispatched to a separate worker process that receives a
  pickled copy of `self` as of scan start, so every `scanFile` call sees
  the parent's `reverseFingerprints` snapshot and its in-worker mutation
  of `reverseFingerprints` (source line 101) is discarded when the
  worker returns; only the returned result dictionaries reach the
  parent, whose merge loop (source lines 120-131) updates
  `self.fingerprints` only.  `Pool.map` returns results in input order.
* `pruneFingerprints` iterates `self.fingerprints.items()` while
  possibly deleting keys; in Python 3 a deletion makes the next
  iterator step raise `RuntimeError`, modelled by an `Option` result
  (`none` = the exception propagates, the call does not complete).
  The inner `for fileName in files: ... files.remove(fileName)` is the
  index-based list iterator of CPython: `remove` shifts later elements
  left while the iterator index still advances, modelled by
  `pruneFiles` below.
-/

namespace AudioDedupe

abbrev Fingerprint := String

abbrev FilePath' := String

/-- Python `dict` with string keys as an insertion-ordered association list. -/
abbrev Dict (β : Type) := List (String × β)

/-- Python `d[k]` / `d.get(k)`: first (and, for well-formed dicts, only) binding. -/
def dget {β : Type} (d : Dict β) (k : String) : Option β :=
  List.lookup k d

/-- Python `k in d`. -/
def dmem {β : Type} (d : Dict β) (k : String) : Bool :=
  (dget d k).isSome

/-- Python `d[k] = v`: update in place when the key exists, else append at the end. -/
def dset {β : Type} (d : Dict β) (k : String) (v : β) : Dict β :=
  if dmem d k then d.map (fun e => if e.1 == k then (k, v) else e) else d ++ [(k, v)]

/-- Python `del d[k]` (the source always guards it with a membership test). -/
def ddel {β : Type} (d : Dict β) (k : String) : Dict β :=
  d.filter (fun e => e.1 != k)

/-- Update the value bound to an existing key in place. -/
def dmodify {β : Type} (d : Dict β) (k : String) (g : β → β) : Dict β :=
  d.map (fun e => if e.1 == k then (e.1, g e.2) else e)

/-- `self.fingerprints`: fingerprint → list of file paths. -/
abbrev Forward := Dict (List FilePath')

/-- `self.reverseFingerprints`: file path → fingerprint. -/
abbrev Reverse := Dict Fingerprint

/-- Does `p` occur in some member list of the forward mapping? -/
def inForward (fwd : Forward) (p : FilePath') : Bool :=
  fwd.any (fun e => e.2.contains p)

/-- The §3 index invariant: every member of `forward[f]` maps back to `f`
through `reverse`, and every `reverse` entry appears in its forward group. -/
def InvariantHolds (fwd : Forward) (rev : Reverse) : Prop :=
  (∀ f files p, (f, files) ∈ fwd → p ∈ files → dget rev p = some f) ∧
  (∀ p f, dget rev p = some f → ∃ files, (f, files) ∈ fwd ∧ p ∈ files)

/-! ### Cache persistence (source lines 57-77) -/

/-- State of the persisted cache file: missing, present but unparseable,
or present and parsing to a forward mapping. -/
inductive CacheContent where
  | absent
  | corrupt
  | valid (fwd : Forward)
  deriving DecidableEq

/-- `loadCache` (source lines 57-65).  Returns the new `self.fingerprints`,
the cache file's state afterwards, and the method's return value.
On a missing file it returns `False` at once; on a parse failure the
exception is caught, `self.fingerprints` is left unchanged and the file
is removed (`os.remove`); on success `self.fingerprints` is replaced. -/
def loadCache (file : CacheContent) (fingerprints : Forward) :
    Forward × CacheContent × Bool :=
  match file with
  | .absent => (fingerprints, .absent, false)
  | .corrupt => (fingerprints, .absent, true)
  | .valid fwd => (fwd, .valid fwd, true)

/-- `writeCache` (source lines 67-72): the file now holds `self.fingerprints`
(the cache directory is assumed creatable; a write failure propagates and is
out of this model's scope). -/
def writeCache (fingerprints : Forward) : CacheContent :=
  .valid fingerprints

/-- `_updateReverseFingerprints` (source lines 74-77): fold every
`(fingerprint, fileName)` pair of `self.fingerprints` into
`self.reverseFingerprints` (later bindings overwrite earlier ones). -/
def updateReverseFingerprints (fingerprints : Forward) (rev : Reverse) : Reverse :=
  fingerprints.foldl (fun r e => e.2.foldl (fun r fileName => dset r fileName e.1) r) rev

/-- `__init__` (source lines 30-52) restricted to index state: start with
empty mappings, load the cache when `cacheEnabled`, then rebuild
`reverseFingerprints`.  Returns the index and the cache file state. -/
def initIndex (cacheEnabled : Bool) (file : CacheContent) :
    (Forward × Reverse) × CacheContent :=
  let start : Forward × CacheContent × Bool :=
    if cacheEnabled then loadCache file [] else ([], file, false)
  ((start.1, updateReverseFingerprints start.1 []), start.2.1)

/-! ### Scan coordinator (source lines 79-133) -/

/-- Outcome of one invocation of the external fingerprint command, one
constructor per failure branch of `scanFile`:
`procError` — `Popen`/`communicate` raised (including the timeout);
`nonzeroExit` — `proc.returncode != 0`;
`malformedOutput` — `json.loads(out)` raised;
`missingField` — parsed JSON without a `fingerprint` key;
`success fp` — parsed JSON whose `fingerprint` field is `fp`. -/
inductive ProviderResult where
  | procError
  | nonzeroExit
  | malformedOutput
  | missingField
  | success (fingerprint : Fingerprint)
  deriving DecidableEq

/-- Does this provider outcome take one of the failure branches? -/
def ProviderResult.isFailure : ProviderResult → Bool
  | .success _ => false
  | _ => true

/-- The dictionary `scanFile` returns on success
(`{'file': ..., 'fingerprint': ..., 'success': True}`; the other JSON
fields of `fpcalc -json` output are never read by the merge loop). -/
structure ScanResult where
  file : FilePath'
  fingerprint : Fingerprint
  success : Bool
  deriving DecidableEq

/-- What one `scanFile` call produces: the state of the (local, in-worker)
`reverseFingerprints` copy afterwards, the returned value (`none` = Python
`None`), and whether the external command was dispatched (the `Popen` line
was reached). -/
structure ScanFileOut where
  rev : Reverse
  result : Option ScanResult
  invoked : Bool
  deriving DecidableEq

/-- `scanFile` (source lines 79-105).  A cache hit (path already in
`reverseFingerprints`) returns the cached fingerprint without dispatching
the external command.  Otherwise the command runs once — the `while True`
loop body always returns (or breaks on a `None` argument, impossible here
since paths are strings), so it is a single attempt.  On success the
(local) `reverseFingerprints` is updated and the parsed JSON returned;
every failure branch returns `None`. -/
def scanFile (provider : FilePath' → ProviderResult) (rev : Reverse)
    (fileName : FilePath') : ScanFileOut :=
  match dget rev fileName with
  | some fp => ⟨rev, some ⟨fileName, fp, true⟩, false⟩
  | none =>
    match provider fileName with
    | .procError => ⟨rev, none, true⟩
    | .nonzeroExit => ⟨rev, none, true⟩
    | .malformedOutput => ⟨rev, none, true⟩
    | .missingField => ⟨rev, none, true⟩
    | .success fp => ⟨dset rev fileName fp, some ⟨fileName, fp, true⟩, true⟩

/-- The merge body of `scan` for one result (source lines 120-131):
skip `None` results, results without `success`, and results whose file
name or fingerprint is falsy (the empty string); otherwise
`setdefault(fingerprint, [])` and append the file if absent. -/
def record (fwd : Forward) (fileName : FilePath') (fingerprint : Fingerprint) : Forward :=
  let fwd1 := if dmem fwd fingerprint then fwd else fwd ++ [(fingerprint, [])]
  dmodify fwd1 fingerprint
    (fun files => if files.contains fileName then files else files ++ [fileName])

/-- One iteration of the `for res in results` merge loop. -/
def mergeResult (fwd : Forward) (res : Option ScanResult) : Forward :=
  match res with
  | none => fwd
  | some r =>
    if !r.success then fwd
    else if r.file == "" || r.fingerprint == "" then fwd
    else record fwd r.file r.fingerprint

/-- Result of one `scan` call on the coordinating process. -/
structure ScanOut where
  fwd : Forward
  rev : Reverse
  file : CacheContent
  deriving DecidableEq

/-- `scan` (source lines 117-133).  `pool.map(self.scanFile, ...)` pickles
`self` per work item, so every `scanFile` call runs against the parent's
`reverseFingerprints` snapshot `rev` and only its returned value survives;
the parent's `reverseFingerprints` is NOT mutated by `scan`.  The merge
loop folds the results (in candidate order) into `self.fingerprints`, and
the cache is written when enabled. -/
def scan (provider : FilePath' → ProviderResult) (candidates : List FilePath')
    (fwd : Forward) (rev : Reverse) (cacheEnabled : Bool) (file : CacheContent) :
    ScanOut :=
  let results := candidates.map (fun p => (scanFile provider rev p).result)
  let fwd2 := results.foldl mergeResult fwd
  ⟨fwd2, rev, if cacheEnabled then writeCache fwd2 else file⟩

/-! ### Pruner (source lines 135-145) -/

/-- The inner loop `for fileName in files: if not isfile(fileName):
files.remove(fileName); del reverse[fileName]` with CPython list-iterator
semantics: the iterator reads index `i`, advances to `i+1`, and the body's
`remove` (first occurrence) shifts later elements one slot left — so the
element that followed a removed one is never visited. -/
def pruneFiles (isfile : FilePath' → Bool) (files : List FilePath')
    (rev : Reverse) (i : Nat) : List FilePath' × Reverse :=
  if h : i < files.length then
    let x := files.get ⟨i, h⟩
    if isfile x then pruneFiles isfile files rev (i + 1)
    else pruneFiles isfile (files.erase x) (ddel rev x) (i + 1)
  else (files, rev)
  termination_by files.length - i
  decreasing_by
  · omega
  · have hx : files.get ⟨i, h⟩ ∈ files := files.get_mem _ h
    have := List.length_erase_of_mem hx
    omega

/-- The outer loop of `pruneFingerprints` over `self.fingerprints.items()`.
Deleting a key from a dict being iterated makes the iterator's next step
raise `RuntimeError` in Python 3 (the size check precedes the exhaustion
check), so the method completes only when no group ends up empty: `none`
models the escaping exception. -/
def pruneGroups (isfile : FilePath' → Bool) :
    Forward → Reverse → Option (Forward × Reverse)
  | [], rev => some ([], rev)
  | (f, files) :: rest, rev =>
    let step := pruneFiles isfile files rev 0
    if step.1.isEmpty then none
    else
      match pruneGroups isfile rest step.2 with
      | none => none
      | some (rest2, rev2) => some ((f, step.1) :: rest2, rev2)

/-- `pruneFingerprints` (source lines 135-145): prune every group, then
write the cache when enabled.  `none` = the `RuntimeError` escaped. -/
def pruneFingerprints (isfile : FilePath' → Bool) (fwd : Forward) (rev : Reverse)
    (cacheEnabled : Bool) (file : CacheContent) : Option ScanOut :=
  match pruneGroups isfile fwd rev with
  | none => none
  | some (fwd2, rev2) => some ⟨fwd2, rev2, if cacheEnabled then writeCache fwd2 else file⟩

/-! ### CLI wiring of `--disable-cache` (source lines 167-168 and 183) -/

/-- The argparse destination `args.disable_cache` produced by
`action='store_false'`: it defaults to `True` and the flag's presence
stores `False`. -/
def argsDisableCache (flagPresent : Bool) : Bool :=
  !flagPresent

/-- Line 183: `adArgs['cacheEnabled'] = args.disable_cache`. -/
def adArgsCacheEnabled (flagPresent : Bool) : Bool :=
  argsDisableCache flagPresent

/-! ### Simple oracles used in the concrete evaluations -/

/-- Provider oracle that always succeeds with fingerprint `"X"`. -/
def providerAlwaysX : FilePath' → ProviderResult := fun _ => .success "X"

/-- Filesystem oracle on which no path is an existing regular file
(`os.path.isfile` is `False` everywhere). -/
def noFileOnDisk : FilePath' → Bool := fun _ => false

/-- The list update performed by the merge loop on `forward[fingerprint]`. -/
def appendIfAbsent (fileName : FilePath') (files : List FilePath') : List FilePath' :=
  if files.contains fileName then files else files ++ [fileName]

/-- No path appears in two groups with different fingerprints (equivalently:
each path is a member of groups of a single fingerprint).  This is exactly
the well-formedness the §3 invariant forces on the forward mapping, and the
shape `writeCache` persists for any invariant-respecting index. -/
def pathsDisjoint (fwd : Forward) : Bool :=
  fwd.all (fun e1 => fwd.all (fun e2 =>
    e1.2.all (fun q => !(e2.2.contains q) || (e1.1 == e2.1))))

/-! ### The file-name filter of `_descend` (source lines 18 and 107-115)

`_descend` compiles `self.filesFilter` with `re.compile(self.filesFilter)`
— no flags — and keeps the file names accepted by `.match`.  The default
pattern is `DEFAULT_FILES_FILTER = '(?i)^.*\.(mp3|ogg|wav)$'`: the inline
`(?i)` turns IGNORECASE on for the default, but a configured pattern
without `(?i)` is matched case-sensitively.  The pattern language needed
here is embedded as a small regex AST with Brzozowski-derivative
matching; `re.match` with a `^body$` pattern accepts a string when `body`
matches the whole string, or the whole string minus a single trailing
newline (the semantics of `$` without MULTILINE); `.` matches any
character except a newline.  IGNORECASE is modelled as ASCII case folding
(`Char.toLower`), which is what it does on the ASCII letters involved
here. -/

inductive RE where
  | zero
  | eps
  | ch (c : Char)
  | anyc
  | seq (r1 r2 : RE)
  | alt (r1 r2 : RE)
  | star (r : RE)
  deriving DecidableEq

/-- Does the expression accept the empty string? -/
def nullable : RE → Bool
  | .zero => false
  | .eps => true
  | .ch _ => false
  | .anyc => false
  | .seq r1 r2 => nullable r1 && nullable r2
  | .alt r1 r2 => nullable r1 || nullable r2
  | .star _ => true

/-- Brzozowski derivative with respect to one input character; `ci` is the
IGNORECASE flag, under which literal characters compare by ASCII-folded
value. -/
def deriv (ci : Bool) (a : Char) : RE → RE
  | .zero => .zero
  | .eps => .zero
  | .ch c => if (if ci then c.toLower == a.toLower else c == a) then .eps else .zero
  | .anyc => if a == '\n' then .zero else .eps
  | .seq r1 r2 =>
      if nullable r1 then .alt (.seq (deriv ci a r1) r2) (deriv ci a r2)
      else .seq (deriv ci a r1) r2
  | .alt r1 r2 => .alt (deriv ci a r1) (deriv ci a r2)
  | .star r => .seq (deriv ci a r) (.star r)

/-- Whole-string matching by iterated derivatives. -/
def matchesRE (ci : Bool) (r : RE) (s : List Char) : Bool :=
  nullable (s.foldl (fun t a => deriv ci a t) r)

/-- `re.match` of a `^body$` pattern: the body must cover the whole input,
or the whole input minus a trailing newline. -/
def pyMatch (ci : Bool) (r : RE) (s : List Char) : Bool :=
  matchesRE ci r s || ((s.getLast? == some '\n') && matchesRE ci r s.dropLast)

/-- Literal string as a regex (a `\.`-escaped dot is the literal `'.'`). -/
def strRE (s : List Char) : RE :=
  s.foldr (fun c r => RE.seq (.ch c) r) .eps

/-- Body of `DEFAULT_FILES_FILTER` between `^` and `$`:
`.*\.(mp3|ogg|wav)`. -/
def filesFilterBody : RE :=
  .seq (.star .anyc)
    (.seq (.ch '.')
      (.alt (strRE "mp3".data) (.alt (strRE "ogg".data) (strRE "wav".data))))

/-- A compiled pattern: its body and whether it carried the inline `(?i)`
flag (the only source of IGNORECASE, since `re.compile` is called with no
flag argument). -/
structure CompiledFilter where
  ignoreCase : Bool
  body : RE

/-- The compiled `DEFAULT_FILES_FILTER = '(?i)^.*\.(mp3|ogg|wav)$'`. -/
def defaultFilesFilter : CompiledFilter :=
  ⟨true, filesFilterBody⟩

/-- A user-configured pattern `^abc\.mp3$` (passed via `----files-filter`)
with no inline flag: compiled without IGNORECASE. -/
def userPatternAbc : CompiledFilter :=
  ⟨false, strRE "abc.mp3".data⟩

/-- One filter test of `_descend` (line 112): `reFilter.match(fileName)`. -/
def filterMatch (flt : CompiledFilter) (name : List Char) : Bool :=
  pyMatch flt.ignoreCase flt.body name

/-- The filtering `_descend` performs on the file names of a directory:
only names accepted by the pattern are yielded. -/
def descendFilter (flt : CompiledFilter) (fileNames : List (List Char)) :
    List (List Char) :=
  fileNames.filter (fun n => filterMatch flt n)

/-! ### Basic dictionary lemmas -/

theorem dget_eq_none_of_not_dmem {β : Type} (d : Dict β) (k : String)
    (hm : ¬dmem d k) : dget d k = none := by
  rcases h : dget d k with _ | v
  · rfl
  · exact absurd (by simp [dmem, h]) hm

theorem lookup_map_overwrite {β : Type} (d : Dict β) (k : String) (v : β) :
    List.lookup k (d.map (fun e => if e.1 == k then (k, v) else e))
      = if dmem d k then some v else none := by
  induction d with
  | nil => simp [dmem, dget]
  | cons e tl ih =>
    obtain ⟨ek, ev⟩ := e
    simp only [List.map_cons]
    by_cases he : ek = k
    · subst he
      have hm : dmem ((ek, ev) :: tl) ek = true := by
        simp [dmem, dget]
      simp [hm]
    · have hk : (k == ek) = false := beq_false_of_ne (Ne.symm he)
      have hek : (ek == k) = false := beq_false_of_ne he
      have hdm : dmem ((ek, ev) :: tl) k = dmem tl k := by
        simp [dmem, dget, List.lookup_cons, hk]
      simp only [hek, if_false, Bool.false_eq_true, List.lookup_cons, hk, hdm]
      exact ih

theorem lookup_map_overwrite_ne {β : Type} (d : Dict β) (k k' : String) (v : β)
    (h : k' ≠ k) :
    List.lookup k' (d.map (fun e => if e.1 == k then (k, v) else e))
      = List.lookup k' d := by
  induction d with
  | nil => simp
  | cons e tl ih =>
    obtain ⟨ek, ev⟩ := e
    have hk1 : (k' == k) = false := beq_false_of_ne h
    simp only [List.map_cons]
    by_cases he : ek = k
    · subst he
      have hbe : (ek == ek) = true := beq_self_eq_true ek
      simp only [hbe, if_true, List.lookup_cons, hk1]
      exact ih
    · have hek : (ek == k) = false := beq_false_of_ne he
      simp only [hek, if_false, Bool.false_eq_true, List.lookup_cons]
      rcases hb : (k' == ek) with _ | _
      · exact ih
      · rfl

theorem dget_dset_self {β : Type} (d : Dict β) (k : String) (v : β) :
    dget (dset d k v) k = some v := by
  by_cases hm : dmem d k
  · simp only [dset, hm, if_true, dget]
    rw [lookup_map_overwrite]
    simp [hm]
  · simp only [dset, hm, if_false, dget, Bool.false_eq_true]
    rw [List.lookup_append]
    rw [show List.lookup k d = none from dget_eq_none_of_not_dmem d k hm]
    simp

theorem dget_dset_ne {β : Type} (d : Dict β) (k k' : String) (v : β) (h : k' ≠ k) :
    dget (dset d k v) k' = dget d k' := by
  by_cases hm : dmem d k
  · simp only [dset, hm, if_true, dget]
    exact lookup_map_overwrite_ne d k k' v h
  · simp only [dset, hm, if_false, dget, Bool.false_eq_true]
    rw [List.lookup_append]
    have hone : List.lookup k' [(k, v)] = none := by
      simp [List.lookup_cons, beq_false_of_ne h]
    rw [hone]
    simp

/-! ### Claim theorems -/

/-- C1 (code bug): evaluation of `pruneFingerprints` at a failing input.
The claim says that after `prune()` completes every remaining member path
exists on disk and every missing path is gone from both mappings.  On the
group `("X", ["a", "b"])` with neither file on disk, the call completes
and returns the group `("X", ["b"])` with `"b"` still in both mappings,
although `"b"` does not exist: `list.remove` during iteration shifts the
successor of a removed element into the slot the iterator has already
passed, so it is never examined. -/
theorem pruneFingerprints_misses_stale_file :
    pruneFingerprints noFileOnDisk [("X", ["a", "b"])] [("a", "X"), ("b", "X")] true .absent
      = some ⟨[("X", ["b"])], [("b", "X")], writeCache [("X", ["b"])]⟩
    ∧ noFileOnDisk "b" = false
    ∧ inForward [("X", ["b"])] "b" = true
    ∧ dget [("b", "X")] "b" = some "X" := by
  refine ⟨?_, rfl, by decide, by decide⟩
  simp [pruneFingerprints, pruneGroups, pruneFiles, dget, ddel, dmem, dset, writeCache,
    noFileOnDisk]

/-- C2 (code bug): evaluation of `scan` at a failing input.  Starting from
the empty index, scanning one file whose fingerprint is computed as `"X"`
leaves `"a.mp3"` in the forward mapping but not in the reverse mapping
(the `reverseFingerprints` update of `scanFile` happens in a worker
process and is discarded), so the §3 invariant fails after `scan`. -/
theorem scan_violates_index_invariant :
    (scan providerAlwaysX ["a.mp3"] [] [] true .absent).fwd = [("X", ["a.mp3"])]
    ∧ (scan providerAlwaysX ["a.mp3"] [] [] true .absent).rev = []
    ∧ ¬ InvariantHolds [("X", ["a.mp3"])] [] := by
  refine ⟨by decide, rfl, ?_⟩
  rintro ⟨h1, -⟩
  have h := h1 "X" ["a.mp3"] "a.mp3" (List.mem_singleton.mpr rfl)
    (List.mem_singleton.mpr rfl)
  simp [dget, List.lookup] at h

/-- C3 (code bug): after a first `scan` has indexed `"a.mp3"` under `"X"`
(it is in the forward mapping), a second `scan` of the same directory in
the same process still dispatches the external command for `"a.mp3"`,
because `scan` never updates the coordinating process's
`reverseFingerprints`, and `scanFile`'s cache check consults only that
mapping. -/
theorem second_scan_reinvokes_provider :
    inForward (scan providerAlwaysX ["a.mp3"] [] [] true .absent).fwd "a.mp3" = true
    ∧ (scanFile providerAlwaysX
        (scan providerAlwaysX ["a.mp3"] [] [] true .absent).rev "a.mp3").invoked = true := by
  exact ⟨by decide, by decide⟩

/-- C7 (confirmed): loading a corrupt cache file catches the parse
exception, leaves the in-memory index empty (and trivially satisfying the
§3 invariant), removes the corrupt file, and a later `loadCache` on the
now-absent file returns `False` at once instead of failing the same way.
`loadCache` and `initIndex` are total functions: no exception escapes. -/
theorem loadCache_corrupt_soft_recovery :
    initIndex true .corrupt = (([], []), .absent)
    ∧ InvariantHolds [] []
    ∧ loadCache .absent [] = ([], .absent, false) := by
  refine ⟨rfl, ⟨?_, ?_⟩, rfl⟩
  · intro f files p h _
    exact absurd h (List.not_mem_nil _)
  · intro p f h
    simp [dget, List.lookup] at h

/-- C9 (confirmed): `--disable-cache` is declared with
`action='store_false'`, so `args.disable_cache` is `True` by default and
`False` when the flag is given; assigning it unchanged to `cacheEnabled`
(line 183) therefore realizes "flag present ⇒ cache disabled, flag absent
⇒ cache enabled".  With the flag given, `__init__` does not read the
cache file (the index starts empty whatever the file holds) and `scan`
does not write it. -/
theorem disable_cache_flag_contract :
    adArgsCacheEnabled true = false
    ∧ adArgsCacheEnabled false = true
    ∧ (∀ file, initIndex (adArgsCacheEnabled true) file = (([], []), file))
    ∧ (∀ provider candidates fwd rev file,
        (scan provider candidates fwd rev (adArgsCacheEnabled true) file).file = file) := by
  exact ⟨rfl, rfl, fun _ => rfl, fun _ _ _ _ _ => rfl⟩

/-! ### Lemmas about `dmodify` and `record` -/

theorem dget_dmodify_self {β : Type} (d : Dict β) (k : String) (g : β → β) :
    dget (dmodify d k g) k = (dget d k).map g := by
  induction d with
  | nil => simp [dmodify, dget]
  | cons e tl ih =>
    obtain ⟨ek, ev⟩ := e
    by_cases he : ek = k
    · subst he
      simp [dmodify, dget, List.lookup_cons]
    · have hek : (ek == k) = false := beq_false_of_ne he
      have hk : (k == ek) = false := beq_false_of_ne (Ne.symm he)
      simp only [dmodify, List.map_cons, hek, if_false, Bool.false_eq_true, dget,
        List.lookup_cons, hk] at ih ⊢
      exact ih

theorem dmodify_idem {β : Type} (d : Dict β) (k : String) (g : β → β)
    (hg : ∀ v, g (g v) = g v) :
    dmodify (dmodify d k g) k g = dmodify d k g := by
  induction d with
  | nil => rfl
  | cons e tl ih =>
    obtain ⟨ek, ev⟩ := e
    by_cases he : ek = k
    · subst he
      simp only [dmodify, List.map_cons, beq_self_eq_true, if_true, hg ev] at ih ⊢
      rw [ih]
    · have hek : (ek == k) = false := beq_false_of_ne he
      simp only [dmodify, List.map_cons, hek, if_false, Bool.false_eq_true] at ih ⊢
      rw [ih]

theorem record_eq_dmodify (fwd : Forward) (p : FilePath') (f : Fingerprint) :
    record fwd p f
      = dmodify (if dmem fwd f then fwd else fwd ++ [(f, [])]) f (appendIfAbsent p) := by
  rfl

theorem dget_record (fwd : Forward) (p : FilePath') (f : Fingerprint) :
    dget (record fwd p f) f = some (appendIfAbsent p ((dget fwd f).getD [])) := by
  rw [record_eq_dmodify]
  by_cases hm : dmem fwd f
  · simp only [hm, if_true]
    rw [dget_dmodify_self]
    rcases hg : dget fwd f with _ | files
    · simp [dmem, hg] at hm
    · simp
  · simp only [hm, if_false, Bool.false_eq_true]
    rw [dget_dmodify_self]
    have happ : dget (fwd ++ [(f, [])]) f = some [] := by
      unfold dget
      rw [List.lookup_append,
        show List.lookup f fwd = none from dget_eq_none_of_not_dmem fwd f hm]
      simp
    rw [happ, dget_eq_none_of_not_dmem fwd f hm]
    simp

theorem appendIfAbsent_idem (p : FilePath') (v : List FilePath') :
    appendIfAbsent p (appendIfAbsent p v) = appendIfAbsent p v := by
  have hmem : p ∈ appendIfAbsent p v := by
    unfold appendIfAbsent
    by_cases hc : v.contains p = true
    · rw [if_pos hc]
      exact List.elem_iff.mp hc
    · rw [if_neg hc]
      exact List.mem_append_right v (by simp)
  generalize hw : appendIfAbsent p v = w at hmem ⊢
  unfold appendIfAbsent
  rw [if_pos (List.elem_eq_true_of_mem hmem)]

/-- C5 (confirmed): the merge step's record operation (lines 129-131 of the
source) is idempotent — recording the same `(path, fingerprint)` pair a
second time leaves the index unchanged, and when the path was not yet under
that fingerprint the group afterwards contains exactly one occurrence of
it.  The operation is a total function, so no error is raised. -/
theorem record_twice_idempotent (fwd : Forward) (p : FilePath') (f : Fingerprint)
    (h : p ∉ (dget fwd f).getD []) :
    record (record fwd p f) p f = record fwd p f
    ∧ ((dget (record (record fwd p f) p f) f).getD []).count p = 1 := by
  have hidem : record (record fwd p f) p f = record fwd p f := by
    have hm2 : dmem (record fwd p f) f = true := by
      simp [dmem, dget_record]
    rw [record_eq_dmodify (record fwd p f) p f]
    simp only [hm2, if_true]
    rw [record_eq_dmodify fwd p f]
    exact dmodify_idem _ f (appendIfAbsent p) (appendIfAbsent_idem p)
  refine ⟨hidem, ?_⟩
  rw [hidem, dget_record]
  have hc : ((dget fwd f).getD []).contains p = false := by
    rcases hb : ((dget fwd f).getD []).contains p with _ | _
    · rfl
    · exact absurd (by simpa using hb) h
  simp only [appendIfAbsent, hc, Bool.false_eq_true, if_false, Option.getD_some]
  rw [List.count_append]
  rw [List.count_eq_zero.mpr h]
  simp

/-- Closed witness for `record_twice_idempotent` at a concrete input. -/
theorem record_twice_idempotent_witness :
    ("a.mp3" ∉ (dget ([] : Forward) "X").getD [])
    ∧ (record (record [] "a.mp3" "X") "a.mp3" "X" = record [] "a.mp3" "X"
       ∧ ((dget (record (record [] "a.mp3" "X") "a.mp3" "X") "X").getD []).count "a.mp3" = 1) :=
  ⟨by decide, record_twice_idempotent [] "a.mp3" "X" (by decide)⟩

/-- C10 (confirmed): when the provider's parsed output carries an empty
`fingerprint` field, `scanFile` (in its own process copy) still sets
`reverseFingerprints[fileName] = ''` (line 101) and returns the result,
but the merge loop's falsiness check `if not (fileName and fingerprint)`
(line 127) skips it, so the path is recorded under no fingerprint in the
forward mapping. -/
theorem empty_fingerprint_result_skipped (rev : Reverse) (fwd : Forward)
    (p : FilePath') (hrev : dget rev p = none) :
    (scanFile (fun _ => .success "") rev p).rev = dset rev p ""
    ∧ dget (scanFile (fun _ => .success "") rev p).rev p = some ""
    ∧ (scanFile (fun _ => .success "") rev p).result = some ⟨p, "", true⟩
    ∧ mergeResult fwd ((scanFile (fun _ => .success "") rev p).result) = fwd := by
  have hout : scanFile (fun _ => .success "") rev p
      = ⟨dset rev p "", some ⟨p, "", true⟩, true⟩ := by
    simp [scanFile, hrev]
  refine ⟨by rw [hout], ?_, by rw [hout], ?_⟩
  · rw [hout]
    exact dget_dset_self rev p ""
  · rw [hout]
    simp [mergeResult]

/-- Closed witness for `empty_fingerprint_result_skipped` at a concrete input. -/
theorem empty_fingerprint_result_skipped_witness :
    (dget ([] : Reverse) "a.mp3" = none)
    ∧ ((scanFile (fun _ => .success "") [] "a.mp3").rev = dset [] "a.mp3" ""
       ∧ dget (scanFile (fun _ => .success "") [] "a.mp3").rev "a.mp3" = some ""
       ∧ (scanFile (fun _ => .success "") [] "a.mp3").result = some ⟨"a.mp3", "", true⟩
       ∧ mergeResult [("Y", ["c.wav"])]
           ((scanFile (fun _ => .success "") [] "a.mp3").result) = [("Y", ["c.wav"])]) :=
  ⟨rfl, empty_fingerprint_result_skipped [] [("Y", ["c.wav"])] "a.mp3" rfl⟩

/-! ### Lemmas for the failure-handling claim -/

theorem scanFile_result_file (provider : FilePath' → ProviderResult) (rev : Reverse)
    (q : FilePath') (s : ScanResult)
    (h : (scanFile provider rev q).result = some s) : s.file = q := by
  unfold scanFile at h
  rcases hg : dget rev q with _ | fp
  · rw [hg] at h
    cases hp : provider q <;> rw [hp] at h <;> simp at h
    obtain ⟨rfl, -, -⟩ := h
    rfl
  · rw [hg] at h
    simp at h
    obtain ⟨rfl, -, -⟩ := h
    rfl

theorem scanFile_failure_result_none (provider : FilePath' → ProviderResult)
    (rev : Reverse) (p : FilePath') (hrev : dget rev p = none)
    (hfail : (provider p).isFailure = true) :
    (scanFile provider rev p).result = none := by
  unfold scanFile
  rw [hrev]
  cases hp : provider p <;> simp
  rw [hp] at hfail
  simp [ProviderResult.isFailure] at hfail

theorem inForward_eq_false_iff (fwd : Forward) (p : FilePath') :
    inForward fwd p = false ↔ ∀ e ∈ fwd, p ∉ e.2 := by
  simp [inForward, List.any_eq_false]

theorem inForward_record_of_ne (fwd : Forward) (p q : FilePath') (f : Fingerprint)
    (hqp : q ≠ p) (hfwd : inForward fwd p = false) :
    inForward (record fwd q f) p = false := by
  rw [inForward_eq_false_iff] at hfwd ⊢
  have hfwd1 : ∀ e ∈ (if dmem fwd f then fwd else fwd ++ [(f, [])]), p ∉ e.2 := by
    intro e he
    by_cases hm : dmem fwd f
    · rw [if_pos hm] at he
      exact hfwd e he
    · rw [if_neg hm] at he
      rcases List.mem_append.mp he with h1 | h1
      · exact hfwd e h1
      · rw [List.mem_singleton.mp h1]
        exact List.not_mem_nil p
  rw [record_eq_dmodify]
  intro e' he'
  obtain ⟨e, he, rfl⟩ := List.mem_map.mp he'
  by_cases hef : (e.1 == f) = true
  · rw [if_pos hef]
    intro hp
    unfold appendIfAbsent at hp
    by_cases hc : e.2.contains q = true
    · rw [if_pos hc] at hp
      exact hfwd1 e he hp
    · rw [if_neg hc] at hp
      rcases List.mem_append.mp hp with h1 | h1
      · exact hfwd1 e he h1
      · exact hqp (List.mem_singleton.mp h1).symm
  · rw [if_neg hef]
    exact hfwd1 e he

theorem mergeResult_some (fwd : Forward) (s : ScanResult) :
    mergeResult fwd (some s)
      = if (!s.success) = true then fwd
        else if (s.file == "" || s.fingerprint == "") = true then fwd
        else record fwd s.file s.fingerprint := rfl

theorem inForward_mergeResult (fwd : Forward) (r : Option ScanResult) (p : FilePath')
    (hr : ∀ s, r = some s → s.file ≠ p) (hfwd : inForward fwd p = false) :
    inForward (mergeResult fwd r) p = false := by
  rcases r with _ | s
  · exact hfwd
  · rw [mergeResult_some]
    by_cases hs : (!s.success) = true
    · rw [if_pos hs]; exact hfwd
    · rw [if_neg hs]
      by_cases hf : (s.file == "" || s.fingerprint == "") = true
      · rw [if_pos hf]; exact hfwd
      · rw [if_neg hf]
        exact inForward_record_of_ne fwd p s.file s.fingerprint (hr s rfl) hfwd

theorem inForward_foldl_mergeResult (results : List (Option ScanResult))
    (fwd : Forward) (p : FilePath')
    (hres : ∀ r ∈ results, ∀ s, r = some s → s.file ≠ p)
    (hfwd : inForward fwd p = false) :
    inForward (results.foldl mergeResult fwd) p = false := by
  induction results generalizing fwd with
  | nil => exact hfwd
  | cons r rest ih =>
    rw [List.foldl_cons]
    exact ih (mergeResult fwd r) (fun r' hr' => hres r' (List.mem_cons_of_mem r hr'))
      (inForward_mergeResult fwd r p (hres r (List.mem_cons_self r rest)) hfwd)

/-- C4 (confirmed): when the provider invocation for a path fails in any of
the enumerated ways (`ProviderResult.isFailure` covers non-zero exit,
malformed output, missing fingerprint field, and the process or timeout
raising), `scan` leaves that path in neither the forward nor the reverse
mapping, the scan is a total function (it completes, whatever the other
candidates produce), and a subsequent scan reaches the dispatch of the
external command for that path again. -/
theorem provider_failure_leaves_path_unindexed
    (provider : FilePath' → ProviderResult) (p : FilePath')
    (candidates : List FilePath') (fwd : Forward) (rev : Reverse)
    (cacheEnabled : Bool) (file : CacheContent)
    (hfail : (provider p).isFailure = true)
    (hfwd : inForward fwd p = false)
    (hrev : dget rev p = none) :
    inForward (scan provider candidates fwd rev cacheEnabled file).fwd p = false
    ∧ dget (scan provider candidates fwd rev cacheEnabled file).rev p = none
    ∧ (scanFile provider (scan provider candidates fwd rev cacheEnabled file).rev
        p).invoked = true := by
  have hrev2 : (scan provider candidates fwd rev cacheEnabled file).rev = rev := rfl
  refine ⟨?_, by rw [hrev2]; exact hrev, ?_⟩
  · show inForward
      ((candidates.map (fun q => (scanFile provider rev q).result)).foldl mergeResult fwd)
      p = false
    refine inForward_foldl_mergeResult _ fwd p ?_ hfwd
    intro r hr s hs
    obtain ⟨q, hq, rfl⟩ := List.mem_map.mp hr
    have hfile := scanFile_result_file provider rev q s hs
    rw [hfile]
    intro hqp
    subst hqp
    rw [scanFile_failure_result_none provider rev q hrev hfail] at hs
    cases hs
  · rw [hrev2]
    unfold scanFile
    rw [hrev]
    cases hp : provider p <;> simp

/-- Closed witness for `provider_failure_leaves_path_unindexed`: a scan of
`["d.ogg"]` whose provider invocation times out. -/
theorem provider_failure_leaves_path_unindexed_witness :
    ((fun _ => ProviderResult.procError) "d.ogg").isFailure = true
    ∧ inForward ([] : Forward) "d.ogg" = false
    ∧ dget ([] : Reverse) "d.ogg" = none
    ∧ (inForward (scan (fun _ => ProviderResult.procError) ["d.ogg"] [] [] true
          .absent).fwd "d.ogg" = false
       ∧ dget (scan (fun _ => ProviderResult.procError) ["d.ogg"] [] [] true
          .absent).rev "d.ogg" = none
       ∧ (scanFile (fun _ => ProviderResult.procError)
          (scan (fun _ => ProviderResult.procError) ["d.ogg"] [] [] true .absent).rev
          "d.ogg").invoked = true) :=
  ⟨rfl, rfl, rfl,
    provider_failure_leaves_path_unindexed (fun _ => ProviderResult.procError)
      "d.ogg" ["d.ogg"] [] [] true .absent rfl rfl rfl⟩

/-! ### Lemmas for the save/load round-trip -/

theorem pathsDisjoint_spec (fwd : Forward) (h : pathsDisjoint fwd = true) :
    ∀ e1 ∈ fwd, ∀ e2 ∈ fwd, ∀ q, q ∈ e1.2 → q ∈ e2.2 → e1.1 = e2.1 := by
  intro e1 h1 e2 h2 q hq1 hq2
  simp only [pathsDisjoint, List.all_eq_true] at h
  have hor := h e1 h1 e2 h2 q hq1
  rw [Bool.or_eq_true] at hor
  rcases hor with hc | he
  · exact absurd (List.elem_eq_true_of_mem hq2) (by simpa using hc)
  · exact beq_iff_eq.mp he

theorem updateReverseFingerprints_cons (e : Fingerprint × List FilePath')
    (fwd : Forward) (rev : Reverse) :
    updateReverseFingerprints (e :: fwd) rev
      = updateReverseFingerprints fwd (e.2.foldl (fun r q => dset r q e.1) rev) := rfl

theorem dget_foldl_dset_files (files : List FilePath') (f : Fingerprint)
    (rev : Reverse) (p : FilePath') :
    dget (files.foldl (fun r q => dset r q f) rev) p
      = if p ∈ files then some f else dget rev p := by
  induction files generalizing rev with
  | nil => simp
  | cons c cs ih =>
    rw [List.foldl_cons, ih]
    by_cases h1 : p ∈ cs
    · simp [h1]
    · by_cases h2 : p = c
      · subst h2
        simp [h1, dget_dset_self]
      · rw [dget_dset_ne rev c p f h2]
        simp [List.mem_cons, h1, h2]

theorem dget_updateReverseFingerprints_of_absent (fwd : Forward) (rev : Reverse)
    (p : FilePath') (h : ∀ e ∈ fwd, p ∉ e.2) :
    dget (updateReverseFingerprints fwd rev) p = dget rev p := by
  induction fwd generalizing rev with
  | nil => rfl
  | cons e rest ih =>
    rw [updateReverseFingerprints_cons]
    rw [ih _ (fun e' he' => h e' (List.mem_cons_of_mem e he'))]
    rw [dget_foldl_dset_files]
    simp [h e (List.mem_cons_self e rest)]

theorem dget_updateReverseFingerprints_of_mem (fwd : Forward)
    (hdisj : ∀ e1 ∈ fwd, ∀ e2 ∈ fwd, ∀ q, q ∈ e1.2 → q ∈ e2.2 → e1.1 = e2.1) :
    ∀ (rev : Reverse) (p : FilePath') (f : Fingerprint) (files : List FilePath'),
      (f, files) ∈ fwd → p ∈ files →
      dget (updateReverseFingerprints fwd rev) p = some f := by
  induction fwd with
  | nil =>
    intro rev p f files hmem
    cases hmem
  | cons e rest ih =>
    have hdisj' : ∀ e1 ∈ rest, ∀ e2 ∈ rest, ∀ q, q ∈ e1.2 → q ∈ e2.2 → e1.1 = e2.1 :=
      fun e1 h1 e2 h2 => hdisj e1 (List.mem_cons_of_mem e h1) e2 (List.mem_cons_of_mem e h2)
    intro rev p f files hmem hp
    rw [updateReverseFingerprints_cons]
    rcases List.mem_cons.mp hmem with hhead | htail
    · by_cases hrest : ∃ e' ∈ rest, p ∈ e'.2
      · obtain ⟨e', he', hpe'⟩ := hrest
        have hf : e'.1 = f := by
          have := hdisj e' (List.mem_cons_of_mem e he') (f, files) hmem p hpe' hp
          simpa using this
        have hmem' : (f, e'.2) ∈ rest := by
          rw [← hf]
          exact he'
        exact ih hdisj' _ p f e'.2 hmem' hpe'
      · push_neg at hrest
        rw [dget_updateReverseFingerprints_of_absent rest _ p hrest]
        rw [dget_foldl_dset_files]
        have hpe : p ∈ e.2 := by rw [← hhead] at *; exact hp
        have hef : e.1 = f := by rw [← hhead]
        simp [hpe, hef]
    · exact ih hdisj' _ p f files htail hp

theorem dget_updateReverseFingerprints_inv (fwd : Forward) (rev : Reverse)
    (p : FilePath') (f : Fingerprint)
    (h : dget (updateReverseFingerprints fwd rev) p = some f) :
    (∃ files, (f, files) ∈ fwd ∧ p ∈ files) ∨ dget rev p = some f := by
  induction fwd generalizing rev with
  | nil => exact Or.inr h
  | cons e rest ih =>
    rw [updateReverseFingerprints_cons] at h
    rcases ih _ h with hrest | hrev
    · obtain ⟨files, hmem, hp⟩ := hrest
      exact Or.inl ⟨files, List.mem_cons_of_mem e hmem, hp⟩
    · rw [dget_foldl_dset_files] at hrev
      by_cases hpe : p ∈ e.2
      · rw [if_pos hpe] at hrev
        have hef : e.1 = f := Option.some.inj hrev
        subst hef
        exact Or.inl ⟨e.2, by simp, hpe⟩
      · rw [if_neg hpe] at hrev
        exact Or.inr hrev

/-- C6 (confirmed): `writeCache` persists exactly `self.fingerprints`, and a
fresh `__init__` with caching enabled (`loadCache` followed by
`_updateReverseFingerprints` on the initially empty reverse mapping)
reproduces an identical forward mapping together with a reverse mapping
that is exactly the derived inverse of it: `reverse[p] = f` iff `p` is a
member of `forward[f]`.  The hypothesis `pathsDisjoint` states that no path
belongs to groups of two different fingerprints — the well-formedness the
§3 invariant guarantees for any index that was actually saved. -/
theorem save_load_roundtrip (fwd : Forward) (h : pathsDisjoint fwd = true) :
    (initIndex true (writeCache fwd)).1.1 = fwd
    ∧ ∀ p f, dget (initIndex true (writeCache fwd)).1.2 p = some f
        ↔ ∃ files, (f, files) ∈ fwd ∧ p ∈ files := by
  have h2 : (initIndex true (writeCache fwd)).1.2
      = updateReverseFingerprints fwd [] := rfl
  refine ⟨rfl, fun p f => ?_⟩
  rw [h2]
  constructor
  · intro hg
    rcases dget_updateReverseFingerprints_inv fwd [] p f hg with hin | hbase
    · exact hin
    · simp [dget] at hbase
  · rintro ⟨files, hmem, hp⟩
    exact dget_updateReverseFingerprints_of_mem fwd
      (pathsDisjoint_spec fwd h) [] p f files hmem hp

/-- Closed witness for `save_load_roundtrip` at a concrete two-group index. -/
theorem save_load_roundtrip_witness :
    pathsDisjoint [("X", ["a.mp3", "b.mp3"]), ("Y", ["c.wav"])] = true
    ∧ ((initIndex true (writeCache [("X", ["a.mp3", "b.mp3"]), ("Y", ["c.wav"])])).1.1
        = [("X", ["a.mp3", "b.mp3"]), ("Y", ["c.wav"])]
       ∧ ∀ p f,
          dget (initIndex true
            (writeCache [("X", ["a.mp3", "b.mp3"]), ("Y", ["c.wav"])])).1.2 p = some f
          ↔ ∃ files, (f, files) ∈ [("X", ["a.mp3", "b.mp3"]), ("Y", ["c.wav"])]
              ∧ p ∈ files) :=
  ⟨by decide, save_load_roundtrip [("X", ["a.mp3", "b.mp3"]), ("Y", ["c.wav"])] (by decide)⟩

/-! ### Case-insensitivity lemmas -/

theorem toNat_ofNat_valid (n : Nat) (h : n < 55296) : (Char.ofNat n).toNat = n := by
  have hv : n.isValidChar := Or.inl h
  rw [Char.ofNat, dif_pos hv]
  rfl

theorem toLower_eq_newline_iff (a : Char) : a.toLower = '\n' ↔ a = '\n' := by
  constructor
  · intro h
    unfold Char.toLower at h
    by_cases hr : a.toNat ≥ 65 ∧ a.toNat ≤ 90
    · rw [if_pos hr] at h
      have htn := congrArg Char.toNat h
      rw [toNat_ofNat_valid (a.toNat + 32) (by omega)] at htn
      have h10 : Char.toNat '\n' = 10 := rfl
      rw [h10] at htn
      omega
    · rwa [if_neg hr] at h
  · intro h
    subst h
    decide

theorem deriv_ci_congr (a b : Char) (hab : a.toLower = b.toLower) (r : RE) :
    deriv true a r = deriv true b r := by
  induction r with
  | zero => rfl
  | eps => rfl
  | ch c => simp [deriv, hab]
  | anyc =>
    have hnl : (a == '\n') = (b == '\n') := by
      by_cases ha : a = '\n'
      · subst ha
        have hb : b = '\n' := (toLower_eq_newline_iff b).mp (by rw [← hab]; decide)
        subst hb
        rfl
      · have hb : b ≠ '\n' := fun hbe =>
          ha ((toLower_eq_newline_iff a).mp (by rw [hab, hbe]; decide))
        rw [beq_false_of_ne ha, beq_false_of_ne hb]
    simp [deriv, hnl]
  | seq r1 r2 ih1 ih2 => simp [deriv, ih1, ih2]
  | alt r1 r2 ih1 ih2 => simp [deriv, ih1, ih2]
  | star r ih => simp [deriv, ih]

theorem matchesRE_cons (ci : Bool) (a : Char) (r : RE) (s : List Char) :
    matchesRE ci r (a :: s) = matchesRE ci (deriv ci a r) s := rfl

theorem matchesRE_ci_congr (s : List Char) :
    ∀ (t : List Char) (r : RE), s.map Char.toLower = t.map Char.toLower →
      matchesRE true r s = matchesRE true r t := by
  induction s with
  | nil =>
    intro t r h
    have ht : t = [] := List.map_eq_nil_iff.mp h.symm
    subst ht
    rfl
  | cons a s' ih =>
    intro t r h
    cases t with
    | nil => simp at h
    | cons b t' =>
      simp only [List.map_cons, List.cons.injEq] at h
      obtain ⟨hab, hst⟩ := h
      rw [matchesRE_cons, matchesRE_cons, deriv_ci_congr a b hab r]
      exact ih t' (deriv true b r) hst

theorem pyMatch_ci_congr (r : RE) (s t : List Char)
    (h : s.map Char.toLower = t.map Char.toLower) :
    pyMatch true r s = pyMatch true r t := by
  have h1 := matchesRE_ci_congr s t r h
  have hd : s.dropLast.map Char.toLower = t.dropLast.map Char.toLower := by
    rw [List.map_dropLast, List.map_dropLast, h]
  have h2 := matchesRE_ci_congr s.dropLast t.dropLast r hd
  have h3 : (s.getLast? == some '\n') = (t.getLast? == some '\n') := by
    have hg : (s.getLast?).map Char.toLower = (t.getLast?).map Char.toLower := by
      rw [← List.getLast?_map, ← List.getLast?_map, h]
    rcases hs : s.getLast? with _ | c <;> rcases ht : t.getLast? with _ | c'
    · rfl
    · rw [hs, ht] at hg; simp at hg
    · rw [hs, ht] at hg; simp at hg
    · rw [hs, ht] at hg
      simp only [Option.map_some'] at hg
      have hcc : Char.toLower c = Char.toLower c' := by injection hg
      by_cases hc : c = '\n'
      · subst hc
        have hc' : c' = '\n' := (toLower_eq_newline_iff c').mp (by rw [← hcc]; decide)
        subst hc'
        rfl
      · have hc' : c' ≠ '\n' := fun he =>
          hc ((toLower_eq_newline_iff c).mp (by rw [hcc, he]; decide))
        show (c == '\n') = (c' == '\n')
        rw [beq_false_of_ne hc, beq_false_of_ne hc']
  unfold pyMatch
  rw [h1, h2, h3]

/-- C8 (corrected, positive half): with the DEFAULT pattern — whose inline
`(?i)` is what turns IGNORECASE on — matching is insensitive to ASCII
letter case: two names equal up to case are both accepted or both
rejected, and `_descend` yields exactly the accepted names. -/
theorem default_filter_case_insensitive (s t : List Char)
    (h : s.map Char.toLower = t.map Char.toLower) :
    filterMatch defaultFilesFilter s = filterMatch defaultFilesFilter t
    ∧ ∀ (names : List (List Char)) (name : List Char),
        name ∈ descendFilter defaultFilesFilter names
          ↔ name ∈ names ∧ filterMatch defaultFilesFilter name = true := by
  refine ⟨pyMatch_ci_congr filesFilterBody s t h, fun names name => ?_⟩
  simp [descendFilter, List.mem_filter]

/-- Closed witness for `default_filter_case_insensitive`: `"A.MP3"` and
`"a.mp3"` differ only in letter case. -/
theorem default_filter_case_insensitive_witness :
    ("A.MP3".data.map Char.toLower = "a.mp3".data.map Char.toLower)
    ∧ (filterMatch defaultFilesFilter "A.MP3".data
        = filterMatch defaultFilesFilter "a.mp3".data
       ∧ ∀ (names : List (List Char)) (name : List Char),
          name ∈ descendFilter defaultFilesFilter names
            ↔ name ∈ names ∧ filterMatch defaultFilesFilter name = true) :=
  ⟨by decide, default_filter_case_insensitive "A.MP3".data "a.mp3".data (by decide)⟩

/-- C8 (counterexample): the claim quantifies over EVERY configured
pattern, but `re.compile(self.filesFilter)` passes no IGNORECASE flag, so
a configured pattern without `(?i)` — here `^abc\.mp3$` — accepts
`"abc.mp3"` and rejects `"ABC.MP3"` although the two names differ only in
letter case. -/
theorem configured_pattern_matches_case_sensitively :
    "abc.mp3".data.map Char.toLower = "ABC.MP3".data.map Char.toLower
    ∧ filterMatch userPatternAbc "abc.mp3".data = true
    ∧ filterMatch userPatternAbc "ABC.MP3".data = false := by
  refine ⟨by decide, by decide, by decide⟩

end AudioDedupe
